import Mathlib

/-!
# Verification of the Fast Downward search core against its specification

This file gives a shallow embedding, in Lean 4, of the parts of the
planner's search core that the specification describes, and proves (or
refutes) the specified properties against that embedding.

Embedded components and their C++ sources:
* exit codes and construction-time configuration checks
  (`search_algorithms/eager_search.cc`,
  `operator_counting/operator_counting_heuristic.cc`);
* pattern validation (`pdbs/validation.cc`);
* the segmented vector container (`algorithms/segmented_vector.h`);
* the relaxation-based max heuristic (`heuristics/max_heuristic.cc`);
* the eager best-first search loop (`search_algorithms/eager_search.cc`).

Machine integers are modelled as `Int`/`Nat` (the programs involved never
overflow their 32/64-bit types on the inputs considered, and no claim is
about overflow).  Stateful code is modelled by explicit state passing;
functions that can terminate the process return `Except ExitCode`.
-/

/-- Modelled from the spec: process exit codes (spec section 6); the enum
itself lives in `utils/system.h`, which is not among the sampled sources.
Only the codes the embedded components use are modelled. -/
inductive ExitCode where
  | success
  | search_unsolvable
  | search_out_of_resources
  | search_input_error
  | search_unsupported
  | search_critical_error
deriving DecidableEq

/-- An evaluator as seen by the `EagerSearch` constructor: the only
capability the constructor consults is `does_cache_estimates()`. -/
structure Evaluator where
  does_cache_estimates : Bool
deriving DecidableEq

/-- Configuration record produced by a successful `EagerSearch`
construction; only the fields relevant to the embedded checks are kept
(open-list creation and the other members are external collaborators). -/
structure EagerSearchConfig where
  reopen_closed_nodes : Bool
  lazy_evaluator : Option Evaluator
deriving DecidableEq

/-- `EagerSearch::EagerSearch` (eager_search.cc, lines 22-41): after member
initialization, the constructor checks that a non-null `lazy_evaluator`
caches its estimates and otherwise exits with `SEARCH_INPUT_ERROR`. -/
def eagerSearchConstruct (reopen_closed : Bool)
    (lazy_evaluator : Option Evaluator) : Except ExitCode EagerSearchConfig :=
  match lazy_evaluator with
  | some ev =>
    if !ev.does_cache_estimates then
      .error .search_input_error
    else
      .ok ⟨reopen_closed, some ev⟩
  | none => .ok ⟨reopen_closed, none⟩

/-- A constraint generator as seen by the `OperatorCountingHeuristic`
constructor; its behaviour (`initialize_constraints`) is an external
collaborator, so only an identity is kept. -/
structure ConstraintGenerator where
  id : Nat
deriving DecidableEq

/-- Configuration record produced by a successful construction of the
operator-counting heuristic (the LP solver set-up is an external
collaborator and is not modelled). -/
structure OperatorCountingConfig where
  constraint_generators : List ConstraintGenerator
  use_integer_operator_counts : Bool
deriving DecidableEq

/-- Modelled from the spec: `utils::verify_list_not_empty`
(`utils/component_errors.h`, not among the sampled sources).  Per spec
section 7, an empty constraint-generator list is an invalid configuration
raised at construction time and classified as `InputError`, which
terminates the process with the input-error exit code. -/
def verify_list_not_empty (l : List ConstraintGenerator) :
    Except ExitCode Unit :=
  if l.isEmpty then .error .search_input_error else .ok ()

/-- `OperatorCountingHeuristic::OperatorCountingHeuristic`
(operator_counting_heuristic.cc, lines 15-42): verifies that the
constraint-generator list is non-empty before any further set-up. -/
def operatorCountingConstruct (constraint_generators : List ConstraintGenerator)
    (use_integer_operator_counts : Bool) :
    Except ExitCode OperatorCountingConfig := do
  verify_list_not_empty constraint_generators
  return ⟨constraint_generators, use_integer_operator_counts⟩

/-- `std::unique` followed by `erase` on the returned range: removes
adjacent duplicate elements, keeping the first of each run. -/
def uniqueAdjacent : List Int → List Int
  | [] => []
  | [a] => [a]
  | a :: b :: rest =>
    if a = b then uniqueAdjacent (a :: rest)
    else a :: uniqueAdjacent (b :: rest)
termination_by l => l.length

/-- `pdbs::validate_and_normalize_pattern` (validation.cc, lines 15-42):
sorts the pattern, removes duplicates, and exits with
`SEARCH_CRITICAL_ERROR` if the smallest element is negative or the largest
is at least the number of task variables.  The in-place mutation of
`pattern` is modelled by returning the normalized pattern; `std::sort` is
modelled by a correct comparison sort (on integers all correct sorts
produce the same list). -/
def validate_and_normalize_pattern (num_variables : Nat)
    (pattern : List Int) : Except ExitCode (List Int) :=
  let sorted := pattern.insertionSort (· ≤ ·)
  let dedup := uniqueAdjacent sorted
  if dedup.isEmpty then
    .ok dedup
  else if dedup.headD 0 < 0 then
    .error .search_critical_error
  else if (num_variables : Int) ≤ dedup.getLastD 0 then
    .error .search_critical_error
  else
    .ok dedup

/-! ### List helper lemmas for sorted and deduplicated patterns -/

theorem mem_uniqueAdjacent (l : List Int) (x : Int) :
    x ∈ uniqueAdjacent l ↔ x ∈ l := by
  induction l using uniqueAdjacent.induct with
  | case1 => simp [uniqueAdjacent]
  | case2 a => simp [uniqueAdjacent]
  | case3 b rest ih =>
    rw [show uniqueAdjacent (b :: b :: rest) = uniqueAdjacent (b :: rest) from
      by rw [uniqueAdjacent]; simp, ih]
    simp
  | case4 a b rest h ih =>
    rw [show uniqueAdjacent (a :: b :: rest) = a :: uniqueAdjacent (b :: rest)
      from by rw [uniqueAdjacent]; simp [h]]
    simp [ih]

theorem sorted_uniqueAdjacent (l : List Int) (hl : l.Sorted (· ≤ ·)) :
    (uniqueAdjacent l).Sorted (· < ·) := by
  induction l using uniqueAdjacent.induct with
  | case1 => simp [uniqueAdjacent]
  | case2 a => simp [uniqueAdjacent]
  | case3 b rest ih =>
    rw [show uniqueAdjacent (b :: b :: rest) = uniqueAdjacent (b :: rest) from
      by rw [uniqueAdjacent]; simp]
    rcases List.sorted_cons.mp hl with ⟨_, hrest⟩
    exact ih hrest
  | case4 a b rest h ih =>
    rw [show uniqueAdjacent (a :: b :: rest) = a :: uniqueAdjacent (b :: rest)
      from by rw [uniqueAdjacent]; simp [h]]
    rcases List.sorted_cons.mp hl with ⟨hale, hrest⟩
    refine List.sorted_cons.mpr ⟨fun x hx => ?_, ih hrest⟩
    rw [mem_uniqueAdjacent] at hx
    have hab : a < b := lt_of_le_of_ne (hale b (by simp)) h
    rcases List.mem_cons.mp hx with rfl | hx
    · exact hab
    · exact lt_of_lt_of_le hab ((List.sorted_cons.mp hrest).1 x hx)

theorem sorted_headD_le (l : List Int) (d : Int) (hl : l.Sorted (· ≤ ·)) :
    ∀ x ∈ l, l.headD d ≤ x := by
  cases l with
  | nil => simp
  | cons a t =>
    intro x hx
    rcases List.mem_cons.mp hx with rfl | hx
    · simp
    · simpa using (List.sorted_cons.mp hl).1 x hx

theorem sorted_le_getLastD (l : List Int) (d : Int) (hl : l.Sorted (· ≤ ·)) :
    ∀ x ∈ l, x ≤ l.getLastD d := by
  induction l generalizing d with
  | nil => simp
  | cons a t ih =>
    intro x hx
    rcases List.sorted_cons.mp hl with ⟨hale, ht⟩
    rw [List.getLastD_cons]
    rcases List.mem_cons.mp hx with rfl | hx
    · cases t with
      | nil => simp
      | cons b t2 =>
        exact le_trans (hale b (by simp)) (ih x ht b (by simp))
    · exact ih a ht x hx

theorem headD_mem (l : List Int) (d : Int) (h : l ≠ []) : l.headD d ∈ l := by
  cases l with
  | nil => exact absurd rfl h
  | cons a t => simp

theorem getLastD_mem (l : List Int) (d : Int) (h : l ≠ []) :
    l.getLastD d ∈ l := by
  induction l generalizing d with
  | nil => exact absurd rfl h
  | cons a t ih =>
    rw [List.getLastD_cons]
    cases t with
    | nil => simp
    | cons b t2 => exact List.mem_cons_of_mem a (ih a (by simp))

/-! ### Claim theorems: configuration checks and pattern validation -/

/-- C5: Constructing an `EagerSearch` with a non-null `lazy_evaluator` that
does not cache estimates fails at construction time with the input-error
exit code; with a null or caching lazy evaluator, construction succeeds. -/
theorem eager_search_lazy_evaluator_check (reopen_closed : Bool)
    (lazy_evaluator : Option Evaluator) :
    (eagerSearchConstruct reopen_closed lazy_evaluator =
        .error .search_input_error ↔
      ∃ ev, lazy_evaluator = some ev ∧ ev.does_cache_estimates = false)
    ∧ ((∀ ev, lazy_evaluator = some ev → ev.does_cache_estimates = true) →
      eagerSearchConstruct reopen_closed lazy_evaluator =
        .ok ⟨reopen_closed, lazy_evaluator⟩) := by
  cases lazy_evaluator with
  | none => simp [eagerSearchConstruct]
  | some ev =>
    cases hc : ev.does_cache_estimates with
    | false => simp [eagerSearchConstruct, hc]
    | true => simp [eagerSearchConstruct, hc]

/-- Witness for C5: a concrete non-caching lazy evaluator triggers the
input-error branch, checked at the instance used by the theorem. -/
theorem eager_search_lazy_evaluator_check_witness :
    ((eagerSearchConstruct true (some ⟨false⟩) =
        .error .search_input_error ↔
      ∃ ev, (some (⟨false⟩ : Evaluator)) = some ev ∧
        ev.does_cache_estimates = false)
    ∧ ((∀ ev, (some (⟨false⟩ : Evaluator)) = some ev →
          ev.does_cache_estimates = true) →
      eagerSearchConstruct true (some ⟨false⟩) = .ok ⟨true, some ⟨false⟩⟩)) :=
  eager_search_lazy_evaluator_check true (some ⟨false⟩)

/-- C8: Constructing an `OperatorCountingHeuristic` with an empty
constraint-generator list raises the input error at construction time, and
with a non-empty list it does not. -/
theorem operator_counting_nonempty_check
    (gens : List ConstraintGenerator) (b : Bool) :
    (operatorCountingConstruct gens b = .error .search_input_error ↔
      gens = [])
    ∧ (gens ≠ [] → operatorCountingConstruct gens b = .ok ⟨gens, b⟩) := by
  cases gens with
  | nil => simp [operatorCountingConstruct, verify_list_not_empty]
  | cons g gs =>
    simp [operatorCountingConstruct, verify_list_not_empty]

/-- Witness for C8 at an empty and a singleton generator list. -/
theorem operator_counting_nonempty_check_witness :
    ((operatorCountingConstruct [] true = .error .search_input_error ↔
      ([] : List ConstraintGenerator) = [])
    ∧ (([] : List ConstraintGenerator) ≠ [] →
      operatorCountingConstruct [] true = .ok ⟨[], true⟩))
    ∧ ((operatorCountingConstruct [⟨0⟩] true = .error .search_input_error ↔
      ([⟨0⟩] : List ConstraintGenerator) = [])
    ∧ (([⟨0⟩] : List ConstraintGenerator) ≠ [] →
      operatorCountingConstruct [⟨0⟩] true = .ok ⟨[⟨0⟩], true⟩)) :=
  ⟨operator_counting_nonempty_check [] true,
   operator_counting_nonempty_check [⟨0⟩] true⟩

/-- C10: on normal return the normalized pattern is strictly sorted, free
of duplicates and within the variable range; the critical-error exit
happens exactly when the deduplicated sorted pattern contains a negative
variable or one at least the number of task variables. -/
theorem validate_pattern_contract (num_variables : Nat) (pattern : List Int) :
    (∀ p, validate_and_normalize_pattern num_variables pattern = .ok p →
      p.Sorted (· < ·) ∧ p.Nodup ∧ ∀ v ∈ p, 0 ≤ v ∧ v < (num_variables : Int))
    ∧ (validate_and_normalize_pattern num_variables pattern =
        .error .search_critical_error ↔
      ∃ v ∈ uniqueAdjacent (pattern.insertionSort (· ≤ ·)),
        v < 0 ∨ (num_variables : Int) ≤ v) := by
  have hsorted : (pattern.insertionSort (· ≤ ·)).Sorted (· ≤ ·) :=
    List.sorted_insertionSort _ _
  have hD : (uniqueAdjacent (pattern.insertionSort (· ≤ ·))).Sorted (· < ·) :=
    sorted_uniqueAdjacent _ hsorted
  have hDle : (uniqueAdjacent (pattern.insertionSort (· ≤ ·))).Sorted (· ≤ ·) :=
    hD.imp (fun h => le_of_lt h)
  simp only [validate_and_normalize_pattern]
  set dedup := uniqueAdjacent (pattern.insertionSort (· ≤ ·)) with hdedup
  by_cases hemp : dedup.isEmpty
  · rw [if_pos hemp]
    rw [List.isEmpty_iff] at hemp
    constructor
    · intro p hp
      rw [Except.ok.injEq] at hp
      subst hp
      rw [hemp]
      simp
    · rw [hemp]
      simp
  · rw [if_neg hemp]
    rw [List.isEmpty_iff] at hemp
    replace hemp : dedup ≠ [] := fun h => hemp h
    by_cases hneg : dedup.headD 0 < 0
    · rw [if_pos hneg]
      constructor
      · intro p hp; exact absurd hp (by simp)
      · simp only [true_iff, iff_true_intro rfl]
        exact ⟨dedup.headD 0, headD_mem _ _ hemp, Or.inl hneg⟩
    · rw [if_neg hneg]
      by_cases hhigh : (num_variables : Int) ≤ dedup.getLastD 0
      · rw [if_pos hhigh]
        constructor
        · intro p hp; exact absurd hp (by simp)
        · simp only [true_iff, iff_true_intro rfl]
          exact ⟨dedup.getLastD 0, getLastD_mem _ _ hemp, Or.inr hhigh⟩
      · rw [if_neg hhigh]
        have hrange : ∀ v ∈ dedup, 0 ≤ v ∧ v < (num_variables : Int) := by
          intro v hv
          constructor
          · exact le_trans (not_lt.mp hneg) (sorted_headD_le _ 0 hDle v hv)
          · exact lt_of_le_of_lt (sorted_le_getLastD _ 0 hDle v hv)
              (not_le.mp hhigh)
        constructor
        · intro p hp
          rw [Except.ok.injEq] at hp
          subst hp
          exact ⟨hD, hD.nodup, hrange⟩
        · constructor
          · intro h; exact absurd h (by simp)
          · rintro ⟨v, hv, hbad⟩
            rcases hrange v hv with ⟨h0, hn⟩
            rcases hbad with h | h
            · exact absurd h0 (not_le.mpr h)
            · exact absurd hn (not_lt.mpr h)

/-- Witness for C10 at a concrete pattern with a duplicate. -/
theorem validate_pattern_contract_witness :
    (∀ p, validate_and_normalize_pattern 3 [2, 0, 2] = .ok p →
      p.Sorted (· < ·) ∧ p.Nodup ∧ ∀ v ∈ p, 0 ≤ v ∧ v < ((3 : Nat) : Int))
    ∧ (validate_and_normalize_pattern 3 [2, 0, 2] =
        .error .search_critical_error ↔
      ∃ v ∈ uniqueAdjacent (([2, 0, 2] : List Int).insertionSort (· ≤ ·)),
        v < 0 ∨ ((3 : Nat) : Int) ≤ v) :=
  validate_pattern_contract 3 [2, 0, 2]
/-!
## Segmented vector (`algorithms/segmented_vector.h`)

`SEGMENT_ELEMENTS` is computed in the source from a byte budget divided by
the element size with a minimum of one element per segment; memory layout
is outside the embedding, so the segment capacity is a parameter `seg`
with the source-guaranteed hypothesis `0 < seg`.  Allocator calls
(`allocate`, `construct`, `destroy`) are modelled by `Option`-valued
slots: an unconstructed or destroyed slot holds `none`.
-/

/-- The segmented vector: a list of fixed-capacity segments plus the live
size (`segments` / `the_size` in segmented_vector.h). -/
structure SegmentedVector (α : Type) where
  segments : List (List (Option α))
  the_size : Nat

/-- `SegmentedVector::add_segment` (segmented_vector.h, lines 75-79):
allocates one fresh (unconstructed) segment at the back. -/
def add_segment (seg : Nat) (sv : SegmentedVector α) : SegmentedVector α :=
  { sv with segments := sv.segments ++ [List.replicate seg none] }

/-- `SegmentedVector::operator[]` (segmented_vector.h, lines 102-114):
reads `segments[index / SEGMENT_ELEMENTS][index % SEGMENT_ELEMENTS]`. -/
def segvec_get (seg : Nat) (sv : SegmentedVector α) (index : Nat) : Option α :=
  (sv.segments.getD (index / seg) []).getD (index % seg) none

/-- `SegmentedVector::push_back` (segmented_vector.h, lines 120-131):
adds a segment when the insertion position starts a new one, then
constructs the entry at `(the_size / seg, the_size % seg)`. -/
def push_back (seg : Nat) (sv : SegmentedVector α) (entry : α) : SegmentedVector α :=
  let segment := sv.the_size / seg
  let offset := sv.the_size % seg
  let sv2 := if segment = sv.segments.length then add_segment seg sv else sv
  { segments := sv2.segments.set segment
      ((sv2.segments.getD segment []).set offset (some entry)),
    the_size := sv2.the_size + 1 }

/-- `SegmentedVector::pop_back` (segmented_vector.h, lines 133-142):
destroys the last live element and decrements the size; the drained
segment is never deallocated. -/
def pop_back (seg : Nat) (sv : SegmentedVector α) : SegmentedVector α :=
  let index := sv.the_size - 1
  { segments := sv.segments.set (index / seg)
      ((sv.segments.getD (index / seg) []).set (index % seg) none),
    the_size := sv.the_size - 1 }

theorem mem_of_mem_set {β : Type} (xs : List β) (j : Nat) (v c : β)
    (h : c ∈ xs.set j v) : c ∈ xs ∨ c = v := by
  induction xs generalizing j with
  | nil => simp at h
  | cons x t ih =>
    cases j with
    | zero =>
      rcases List.mem_cons.mp h with rfl | h
      · exact Or.inr rfl
      · exact Or.inl (List.mem_cons_of_mem x h)
    | succ j =>
      rcases List.mem_cons.mp h with rfl | h
      · exact Or.inl (List.mem_cons_self _ _)
      · rcases ih j h with h | h
        · exact Or.inl (List.mem_cons_of_mem x h)
        · exact Or.inr h

theorem getD_set_self {β : Type} (xs : List β) (j : Nat) (v d : β)
    (h : j < xs.length) : (xs.set j v).getD j d = v := by
  rw [List.getD_eq_getElem?_getD, List.getElem?_set_self h]
  rfl

theorem getD_set_ne {β : Type} (xs : List β) (i j : Nat) (v d : β)
    (h : i ≠ j) : (xs.set i v).getD j d = xs.getD j d := by
  rw [List.getD_eq_getElem?_getD, List.getElem?_set_ne h,
    ← List.getD_eq_getElem?_getD]

theorem getD_append_lt {β : Type} (xs ys : List β) (j : Nat) (d : β)
    (h : j < xs.length) : (xs ++ ys).getD j d = xs.getD j d := by
  simp [List.getD_eq_getElem?_getD, List.getElem?_append, h]

theorem getD_append_len {β : Type} (xs : List β) (c : β) (d : β) :
    (xs ++ [c]).getD xs.length d = c := by
  simp [List.getD_eq_getElem?_getD, List.getElem?_concat_length]

theorem getD_out_of_range {β : Type} (xs : List β) (j : Nat) (d : β)
    (h : xs.length ≤ j) : xs.getD j d = d := by
  rw [List.getD_eq_getElem?_getD, List.getElem?_eq_none h]
  rfl

theorem set_append_len {β : Type} (xs : List β) (c c' : β) :
    (xs ++ [c]).set xs.length c' = xs ++ [c'] := by
  induction xs with
  | nil => simp
  | cons x t ih => simp [List.set, ih]

theorem replicate_none_getD {α : Type} (seg j : Nat) :
    (List.replicate seg (none : Option α)).getD j none = none := by
  rcases lt_or_ge j seg with h | h
  · simp [List.getD_eq_getElem?_getD, List.getElem?_replicate, h]
  · exact getD_out_of_range _ _ _ (by simpa using h)

theorem index_decomp_unique (seg i n : Nat)
    (hdiv : i / seg = n / seg) (hmod : i % seg = n % seg) : i = n := by
  have hi := Nat.div_add_mod i seg
  have hn := Nat.div_add_mod n seg
  rw [hdiv, hmod] at hi
  omega

/-- Simulation invariant tying a segmented vector to the plain vector
holding the same live elements. -/
def SegInv (seg : Nat) (sv : SegmentedVector α) (l : List α) : Prop :=
  sv.the_size = l.length ∧
  (∀ c ∈ sv.segments, c.length = seg) ∧
  l.length ≤ seg * sv.segments.length ∧
  ∀ i, segvec_get seg sv i = l[i]?

theorem SegInv_push {α : Type} (seg : Nat) (hseg : 0 < seg)
    (sv : SegmentedVector α) (l : List α) (a : α) (h : SegInv seg sv l) :
    SegInv seg (push_back seg sv a) (l ++ [a]) := by
  obtain ⟨hsize, hlen, hcap, hread⟩ := h
  have hnlen : sv.the_size / seg ≤ sv.segments.length := by
    have h2 : sv.the_size / seg < sv.segments.length + 1 := by
      rw [Nat.div_lt_iff_lt_mul hseg, Nat.add_mul, Nat.one_mul,
        Nat.mul_comm]
      omega
    omega
  have hmod : sv.the_size % seg < seg := Nat.mod_lt _ hseg
  by_cases hfull : sv.the_size / seg = sv.segments.length
  · -- a new segment is added
    have hsz2 : sv.the_size < seg * (sv.segments.length + 1) := by
      rw [Nat.mul_comm, ← Nat.div_lt_iff_lt_mul hseg]
      omega
    have hpush : push_back seg sv a =
        { segments := sv.segments ++
            [(List.replicate seg none).set (sv.the_size % seg) (some a)],
          the_size := sv.the_size + 1 } := by
      simp only [push_back, add_segment]
      rw [if_pos hfull]
      simp only
      rw [hfull, getD_append_len, set_append_len]
    rw [hpush]
    refine ⟨by simp [hsize], ?_, ?_, ?_⟩
    · intro c hc
      rcases List.mem_append.mp hc with hc | hc
      · exact hlen c hc
      · simp at hc
        subst hc
        simp
    · simp only [List.length_append, List.length_singleton]
      omega
    · intro i
      by_cases hi : i = sv.the_size
      · subst hi
        rw [segvec_get]
        simp only
        rw [hfull, getD_append_len,
          getD_set_self _ _ _ _ (by simpa using hmod),
          hsize, List.getElem?_concat_length]
      · have hrhs : (l ++ [a])[i]? = l[i]? := by
          by_cases hil : i < l.length
          · simp [List.getElem?_append, hil]
          · rw [List.getElem?_eq_none (by simp; omega),
              List.getElem?_eq_none (by omega)]
        rw [hrhs, ← hread i, segvec_get, segvec_get]
        simp only
        by_cases hdiv : i / seg = sv.the_size / seg
        · have hmne : i % seg ≠ sv.the_size % seg := fun hm =>
            hi (index_decomp_unique seg i sv.the_size hdiv hm)
          rw [hdiv, hfull, getD_append_len,
            getD_set_ne _ _ _ _ _ (fun hm => hmne hm.symm),
            replicate_none_getD,
            getD_out_of_range _ _ _ (le_refl _)]
          rfl
        · by_cases hlt : i / seg < sv.segments.length
          · rw [getD_append_lt _ _ _ _ hlt]
          · have h1 : (sv.segments ++
                [(List.replicate seg none).set
                  (sv.the_size % seg) (some a)]).getD (i / seg) [] = [] :=
              getD_out_of_range _ _ _ (by
                simp only [List.length_append, List.length_singleton]
                omega)
            have h2 : sv.segments.getD (i / seg) [] = [] :=
              getD_out_of_range _ _ _ (by omega)
            rw [h1, h2]
  · -- existing segment has room
    have hlt : sv.the_size / seg < sv.segments.length := by omega
    have hchunk : sv.segments.getD (sv.the_size / seg) [] ∈ sv.segments := by
      rw [List.getD_eq_getElem?_getD, List.getElem?_eq_getElem hlt]
      exact List.getElem_mem hlt
    have hchunklen : (sv.segments.getD (sv.the_size / seg) []).length = seg :=
      hlen _ hchunk
    have hpush : push_back seg sv a =
        { segments := sv.segments.set (sv.the_size / seg)
            ((sv.segments.getD (sv.the_size / seg) []).set
              (sv.the_size % seg) (some a)),
          the_size := sv.the_size + 1 } := by
      simp only [push_back]
      rw [if_neg hfull]
    rw [hpush]
    refine ⟨by simp [hsize], ?_, ?_, ?_⟩
    · intro c hc
      rcases mem_of_mem_set _ _ _ _ hc with hc | hc
      · exact hlen c hc
      · subst hc
        rw [List.length_set]
        exact hchunklen
    · rw [List.length_set]
      simp only [List.length_append, List.length_singleton]
      have hroom : sv.the_size < seg * sv.segments.length := by
        rw [Nat.mul_comm, ← Nat.div_lt_iff_lt_mul hseg]
        omega
      omega
    · intro i
      by_cases hi : i = sv.the_size
      · subst hi
        rw [segvec_get]
        simp only
        rw [getD_set_self _ _ _ _ hlt,
          getD_set_self _ _ _ _ (by rw [hchunklen]; exact hmod),
          hsize, List.getElem?_concat_length]
      · have hrhs : (l ++ [a])[i]? = l[i]? := by
          by_cases hil : i < l.length
          · simp [List.getElem?_append, hil]
          · rw [List.getElem?_eq_none (by simp; omega),
              List.getElem?_eq_none (by omega)]
        rw [hrhs, ← hread i, segvec_get, segvec_get]
        simp only
        by_cases hdiv : i / seg = sv.the_size / seg
        · have hmne : i % seg ≠ sv.the_size % seg := fun hm =>
            hi (index_decomp_unique seg i sv.the_size hdiv hm)
          rw [hdiv, getD_set_self _ _ _ _ hlt,
            getD_set_ne _ _ _ _ _ (fun hm => hmne hm.symm)]
        · rw [getD_set_ne _ _ _ _ _ (fun hm => hdiv hm.symm)]

theorem SegInv_pop {α : Type} (seg : Nat) (hseg : 0 < seg)
    (sv : SegmentedVector α) (l : List α) (h : SegInv seg sv l) (hne : l ≠ []) :
    SegInv seg (pop_back seg sv) l.dropLast := by
  obtain ⟨hsize, hlen, hcap, hread⟩ := h
  have hpos : 0 < l.length := List.length_pos.mpr hne
  have hlt : (sv.the_size - 1) / seg < sv.segments.length := by
    rw [Nat.div_lt_iff_lt_mul hseg, Nat.mul_comm]
    omega
  have hmod : (sv.the_size - 1) % seg < seg := Nat.mod_lt _ hseg
  have hchunk : sv.segments.getD ((sv.the_size - 1) / seg) [] ∈
      sv.segments := by
    rw [List.getD_eq_getElem?_getD, List.getElem?_eq_getElem hlt]
    exact List.getElem_mem hlt
  have hchunklen :
      (sv.segments.getD ((sv.the_size - 1) / seg) []).length = seg :=
    hlen _ hchunk
  have hpop : pop_back seg sv =
      { segments := sv.segments.set ((sv.the_size - 1) / seg)
          ((sv.segments.getD ((sv.the_size - 1) / seg) []).set
            ((sv.the_size - 1) % seg) none),
        the_size := sv.the_size - 1 } := by
    simp only [pop_back]
  rw [hpop]
  refine ⟨by simp [hsize], ?_, ?_, ?_⟩
  · intro c hc
    rcases mem_of_mem_set _ _ _ _ hc with hc | hc
    · exact hlen c hc
    · subst hc
      rw [List.length_set]
      exact hchunklen
  · rw [List.length_set, List.length_dropLast]
    omega
  · intro i
    have hrhs : l.dropLast[i]? = if i < l.length - 1 then l[i]? else none :=
      List.getElem?_dropLast l i
    by_cases hi : i = sv.the_size - 1
    · subst hi
      rw [segvec_get]
      simp only
      rw [getD_set_self _ _ _ _ hlt,
        getD_set_self _ _ _ _ (by rw [hchunklen]; exact hmod), hrhs]
      rw [if_neg (by omega)]
    · have hlhs : segvec_get seg
          { segments := sv.segments.set ((sv.the_size - 1) / seg)
              ((sv.segments.getD ((sv.the_size - 1) / seg) []).set
                ((sv.the_size - 1) % seg) none),
            the_size := sv.the_size - 1 } i = l[i]? := by
        rw [← hread i, segvec_get, segvec_get]
        simp only
        by_cases hdiv : i / seg = (sv.the_size - 1) / seg
        · have hmne : i % seg ≠ (sv.the_size - 1) % seg := fun hm =>
            hi (index_decomp_unique seg i (sv.the_size - 1) hdiv hm)
          rw [hdiv, getD_set_self _ _ _ _ hlt,
            getD_set_ne _ _ _ _ _ (fun hm => hmne hm.symm)]
        · rw [getD_set_ne _ _ _ _ _ (fun hm => hdiv hm.symm)]
      rw [hlhs, hrhs]
      by_cases hsmall : i < l.length - 1
      · rw [if_pos hsmall]
      · rw [if_neg hsmall, List.getElem?_eq_none (by omega)]

/-- One operation of a `push_back`/`pop_back` sequence. -/
inductive VecOp (α : Type) where
  | push : α → VecOp α
  | pop
deriving DecidableEq

/-- Apply one operation to a segmented vector. -/
def segStep (seg : Nat) (sv : SegmentedVector α) : VecOp α → SegmentedVector α
  | .push a => push_back seg sv a
  | .pop => pop_back seg sv

/-- Apply one operation to the plain reference vector
(`std::vector`-style: `push_back` appends, `pop_back` drops the last). -/
def vecStep (l : List α) : VecOp α → List α
  | .push a => l ++ [a]
  | .pop => l.dropLast

/-- Run a whole operation sequence on an initially empty segmented
vector. -/
def segRun (seg : Nat) (ops : List (VecOp α)) : SegmentedVector α :=
  ops.foldl (segStep seg) ⟨[], 0⟩

/-- Run a whole operation sequence on an initially empty plain vector. -/
def vecRun (ops : List (VecOp α)) : List α :=
  ops.foldl vecStep []

/-- A sequence is legal from `live` live elements when no `pop` hits an
empty container (popping an empty vector is undefined behaviour in the
source, guarded there by an assertion). -/
def legalFrom (live : Nat) : List (VecOp α) → Bool
  | [] => true
  | .push _ :: rest => legalFrom (live + 1) rest
  | .pop :: rest => live != 0 && legalFrom (live - 1) rest

theorem segRun_inv {α : Type} (seg : Nat) (hseg : 0 < seg) :
    ∀ (ops : List (VecOp α)) (sv : SegmentedVector α) (l : List α),
      SegInv seg sv l → legalFrom l.length ops = true →
      SegInv seg (ops.foldl (segStep seg) sv) (ops.foldl vecStep l) := by
  intro ops
  induction ops with
  | nil => intro sv l h _; exact h
  | cons op rest ih =>
    intro sv l h hlegal
    cases op with
    | push a =>
      rw [List.foldl_cons, List.foldl_cons]
      have h2 := SegInv_push seg hseg sv l a h
      have hlegal2 : legalFrom (l ++ [a]).length rest = true := by
        simpa [legalFrom] using hlegal
      exact ih _ _ h2 hlegal2
    | pop =>
      rw [List.foldl_cons, List.foldl_cons]
      simp only [legalFrom, Bool.and_eq_true, bne_iff_ne, ne_eq] at hlegal
      have hne : l ≠ [] := by
        intro hl
        subst hl
        simp at hlegal
      have h2 := SegInv_pop seg hseg sv l h hne
      have hlegal2 : legalFrom l.dropLast.length rest = true := by
        rw [List.length_dropLast]
        exact hlegal.2
      exact ih _ _ h2 hlegal2


/-- C6: for every legal sequence of `push_back`/`pop_back` operations the
segmented vector observably equals the plain reference vector run on the
same sequence: `size()` is the number of live elements and `operator[]`
returns the i-th pushed element of the live prefix (FIFO order across
segment boundaries). -/
theorem segmented_vector_refines_plain_vector {α : Type} (seg : Nat)
    (hseg : 0 < seg) (ops : List (VecOp α))
    (hlegal : legalFrom 0 ops = true) :
    (segRun seg ops).the_size = (vecRun ops).length ∧
    ∀ i, i < (vecRun ops).length →
      segvec_get seg (segRun seg ops) i = (vecRun ops)[i]? := by
  have hinit : SegInv seg (⟨[], 0⟩ : SegmentedVector α) [] := by
    refine ⟨rfl, by simp, by simp, fun i => ?_⟩
    simp [segvec_get]
  have h := segRun_inv seg hseg ops ⟨[], 0⟩ [] hinit (by simpa using hlegal)
  exact ⟨h.1, fun i _ => h.2.2.2 i⟩

/-- Witness for C6: a concrete five-operation sequence crossing a segment
boundary of capacity two. -/
theorem segmented_vector_refines_plain_vector_witness :
    (segRun 2 [VecOp.push (10 : Nat), VecOp.push 20, VecOp.push 30,
        VecOp.pop, VecOp.push 40]).the_size =
      (vecRun [VecOp.push (10 : Nat), VecOp.push 20, VecOp.push 30,
        VecOp.pop, VecOp.push 40]).length ∧
    ∀ i, i < (vecRun [VecOp.push (10 : Nat), VecOp.push 20, VecOp.push 30,
        VecOp.pop, VecOp.push 40]).length →
      segvec_get 2 (segRun 2 [VecOp.push (10 : Nat), VecOp.push 20,
        VecOp.push 30, VecOp.pop, VecOp.push 40]) i =
      (vecRun [VecOp.push (10 : Nat), VecOp.push 20, VecOp.push 30,
        VecOp.pop, VecOp.push 40])[i]? :=
  segmented_vector_refines_plain_vector 2 (by decide) _ (by decide)
/-!
## Relaxation-based max heuristic (`heuristics/max_heuristic.cc`)

The per-task graph of propositions and unary operators is built by
`RelaxationHeuristic` (relaxation_heuristic.h/cc, not among the sampled
sources); its node types are embedded here as plain records and the
pooled `precondition_of` slice as the list it denotes.  Proposition and
operator ids are indices into the respective lists.
-/

/-- A proposition node: goal flag and the unary operators having it as a
precondition (the pool slice of `precondition_of`). -/
structure Proposition where
  is_goal : Bool
  precondition_of : List Nat
deriving DecidableEq

/-- A unary operator node: achieved proposition, precondition count, and
the parent operator's base cost (non-negative per the task contract). -/
structure UnaryOperator where
  effect : Nat
  num_preconditions : Nat
  base_cost : Nat
deriving DecidableEq

/-- The per-task relaxation graph. -/
structure RelaxTask where
  propositions : List Proposition
  unary_operators : List UnaryOperator
  goal_propositions : List Nat
deriving DecidableEq

/-- The mutable exploration state: per-proposition cost (−1 = unreached),
per-operator cost and unsatisfied-precondition counters, and the priority
queue (a list of (cost, proposition) entries in insertion order). -/
structure ExplState where
  prop_cost : List Int
  op_cost : List Int
  op_unsat : List Int
  queue : List (Int × Nat)
deriving DecidableEq

/-- `RelaxationHeuristic::get_proposition`: proposition lookup by id. -/
def get_proposition (t : RelaxTask) (prop_id : Nat) : Proposition :=
  t.propositions.getD prop_id ⟨false, []⟩

/-- `RelaxationHeuristic::get_operator`: unary-operator lookup by id. -/
def get_operator (t : RelaxTask) (op_id : Nat) : UnaryOperator :=
  t.unary_operators.getD op_id ⟨0, 0, 0⟩

/-- Modelled from the spec: `RelaxationHeuristic::enqueue_if_necessary`
(relaxation_heuristic.h, not among the sampled sources).  The spec's
stale-entry skip (section 4.4, step 3: pop `(d, prop)`, skip when
`prop.cost < d`) presupposes exactly this queue discipline: an enqueue
records the new best cost in `prop.cost` and pushes the entry, and does
nothing when the proposition already has an equal or better cost. -/
def enqueue_if_necessary (st : ExplState) (prop_id : Nat) (cost : Int) :
    ExplState :=
  let cur := st.prop_cost.getD prop_id (-1)
  if cur = -1 ∨ cost < cur then
    { st with prop_cost := st.prop_cost.set prop_id cost,
              queue := st.queue ++ [(cost, prop_id)] }
  else st

/-- Pop of the bucket-based priority queue (`priority_queues.h`,
external): returns a minimum-cost entry, FIFO among equal costs (spec
section 4.4: cost-correct for any stable ordering). -/
def popMin : List (Int × Nat) → Option ((Int × Nat) × List (Int × Nat))
  | [] => none
  | x :: xs =>
    match popMin xs with
    | none => some (x, xs)
    | some (m, rest) =>
      if x.1 ≤ m.1 then some (x, xs) else some (m, x :: rest)

/-- The operator loop of `HSPMaxHeuristic::setup_exploration_queue`
(max_heuristic.cc, lines 43-49): resets each operator's counters and
enqueues the effect of each precondition-free operator at its base
cost. -/
def setupOps : List UnaryOperator → Nat → ExplState → ExplState
  | [], _, st => st
  | op :: rest, i, st =>
    let st1 :=
      { st with
        op_unsat := st.op_unsat.set i (op.num_preconditions : Int),
        op_cost := st.op_cost.set i (op.base_cost : Int) }
    let st2 :=
      if op.num_preconditions = 0 then
        enqueue_if_necessary st1 op.effect (op.base_cost : Int)
      else st1
    setupOps rest (i + 1) st2

/-- `HSPMaxHeuristic::setup_exploration_queue` (max_heuristic.cc, lines
36-50): clears the queue, resets all proposition costs to −1 and runs the
operator loop. -/
def setup_exploration_queue (t : RelaxTask) : ExplState :=
  setupOps t.unary_operators 0
    { prop_cost := List.replicate t.propositions.length (-1),
      op_cost := List.replicate t.unary_operators.length 0,
      op_unsat := List.replicate t.unary_operators.length 0,
      queue := [] }

/-- `HSPMaxHeuristic::setup_exploration_queue_state` (max_heuristic.cc,
lines 52-57): enqueues each fact of the current state at cost 0. -/
def setup_exploration_queue_state (st : ExplState) (state_facts : List Nat) :
    ExplState :=
  state_facts.foldl (fun st2 p => enqueue_if_necessary st2 p 0) st

/-- Body of the inner loop of `HSPMaxHeuristic::relaxed_exploration`
(max_heuristic.cc, lines 73-82): raise the operator cost to
`max(op.cost, base_cost + prop_cost)`, decrement the unsatisfied counter
and enqueue the effect when it reaches zero. -/
def relaxCostUpdate (t : RelaxTask) (prop_cost : Int)
    (st : ExplState) (op_id : Nat) : ExplState :=
  let unary_op := get_operator t op_id
  let new_cost :=
    max (st.op_cost.getD op_id 0) ((unary_op.base_cost : Int) + prop_cost)
  let new_unsat := st.op_unsat.getD op_id 0 - 1
  let st1 := { st with op_cost := st.op_cost.set op_id new_cost,
                       op_unsat := st.op_unsat.set op_id new_unsat }
  if new_unsat = 0 then enqueue_if_necessary st1 unary_op.effect new_cost
  else st1

/-- `HSPMaxHeuristic::relaxed_exploration` (max_heuristic.cc, lines
59-84), with explicit fuel for the while-loop: pop, skip stale entries,
count down unsolved goals with early return, and process the popped
proposition's operator list. -/
def relaxed_exploration (t : RelaxTask) : Nat → Int → ExplState → ExplState
  | 0, _, st => st
  | fuel + 1, unsolved_goals, st =>
    match popMin st.queue with
    | none => st
    | some ((distance, prop_id), rest) =>
      let st1 := { st with queue := rest }
      let prop := get_proposition t prop_id
      let prop_cost := st1.prop_cost.getD prop_id (-1)
      if prop_cost < distance then
        relaxed_exploration t fuel unsolved_goals st1
      else if prop.is_goal ∧ unsolved_goals - 1 = 0 then st1
      else
        let unsolved2 :=
          if prop.is_goal then unsolved_goals - 1 else unsolved_goals
        let st2 := prop.precondition_of.foldl (relaxCostUpdate t prop_cost) st1
        relaxed_exploration t fuel unsolved2 st2

/-- The result loop of `HSPMaxHeuristic::compute_heuristic`
(max_heuristic.cc, lines 93-101): maximum of the goal costs, `none`
(DEAD_END) as soon as a goal is unreached. -/
def collect_goal_costs (st : ExplState) (goals : List Nat) : Option Int :=
  goals.foldl
    (fun acc goal_id =>
      match acc with
      | none => none
      | some total_cost =>
        let goal_cost := st.prop_cost.getD goal_id (-1)
        if goal_cost = -1 then none else some (max total_cost goal_cost))
    (some 0)

/-- `HSPMaxHeuristic::compute_heuristic` (max_heuristic.cc, lines
86-102); `none` models `DEAD_END`.  `convert_ancestor_state` is a task
transformation outside the embedding; `state_facts` is the list of
proposition ids of the state's facts. -/
def compute_heuristic (t : RelaxTask) (state_facts : List Nat) (fuel : Nat) :
    Option Int :=
  let st := setup_exploration_queue t
  let st1 := setup_exploration_queue_state st state_facts
  let st2 := relaxed_exploration t fuel (t.goal_propositions.length : Int) st1
  collect_goal_costs st2 t.goal_propositions

/-- The reset step exactly as the spec states it (section 4.4, step 1):
all proposition costs −1, operator counters reset, and nothing enqueued
yet. -/
def setup_exploration_queue_spec (t : RelaxTask) : ExplState :=
  { prop_cost := List.replicate t.propositions.length (-1),
    op_cost := t.unary_operators.map (fun op => (op.base_cost : Int)),
    op_unsat := t.unary_operators.map (fun op => (op.num_preconditions : Int)),
    queue := [] }

/-- The algorithm of spec section 4.4 as literally claimed: reset, seed
the queue with precisely the state's facts at cost 0 and nothing else,
explore, and collect the goal costs. -/
def compute_heuristic_spec (t : RelaxTask) (state_facts : List Nat)
    (fuel : Nat) : Option Int :=
  let st := setup_exploration_queue_spec t
  let st1 := setup_exploration_queue_state st state_facts
  let st2 := relaxed_exploration t fuel (t.goal_propositions.length : Int) st1
  collect_goal_costs st2 t.goal_propositions

/-- The seeding pass the code performs beyond the literal spec text:
effects of precondition-free unary operators enter the queue at their
base cost. -/
def enqueueZeroPrecondOps (ops : List UnaryOperator) (st : ExplState) :
    ExplState :=
  ops.foldl
    (fun st2 op =>
      if op.num_preconditions = 0 then
        enqueue_if_necessary st2 op.effect (op.base_cost : Int)
      else st2)
    st

/-- Amended spec set-up: the spec reset followed by the
precondition-free enqueue pass. -/
def setup_exploration_queue_spec_amended (t : RelaxTask) : ExplState :=
  enqueueZeroPrecondOps t.unary_operators (setup_exploration_queue_spec t)

/-- The spec section 4.4 algorithm amended so that the seed also
contains the effects of precondition-free unary operators at their base
costs. -/
def compute_heuristic_spec_amended (t : RelaxTask) (state_facts : List Nat)
    (fuel : Nat) : Option Int :=
  let st := setup_exploration_queue_spec_amended t
  let st1 := setup_exploration_queue_state st state_facts
  let st2 := relaxed_exploration t fuel (t.goal_propositions.length : Int) st1
  collect_goal_costs st2 t.goal_propositions

/-- A two-proposition task with a single precondition-free unary
operator achieving the goal proposition at cost 3. -/
def relaxCE : RelaxTask :=
  { propositions := [⟨false, []⟩, ⟨true, []⟩],
    unary_operators := [⟨1, 0, 3⟩],
    goal_propositions := [1] }


theorem enqueue_preserves_op_arrays (st : ExplState) (p : Nat) (c : Int) :
    (enqueue_if_necessary st p c).op_cost = st.op_cost ∧
    (enqueue_if_necessary st p c).op_unsat = st.op_unsat := by
  simp only [enqueue_if_necessary]
  split <;> exact ⟨rfl, rfl⟩

theorem enqueue_commutes_op_arrays (st : ExplState) (p : Nat) (c : Int)
    (oc ou : List Int) :
    enqueue_if_necessary { st with op_cost := oc, op_unsat := ou } p c =
      { enqueue_if_necessary st p c with op_cost := oc, op_unsat := ou } := by
  simp only [enqueue_if_necessary]
  split <;> rfl

theorem take_set_succ {β : Type} (l : List β) (i : Nat) (v : β)
    (h : i < l.length) : (l.set i v).take (i + 1) = l.take i ++ [v] := by
  induction l generalizing i with
  | nil => simp at h
  | cons x t ih =>
    cases i with
    | zero => simp
    | succ i =>
      simp only [List.set, List.take, List.cons_append, List.cons.injEq,
        true_and]
      exact ih i (by simpa using h)

theorem setupOps_split :
    ∀ (ops : List UnaryOperator) (i : Nat) (st : ExplState),
    st.op_cost.length = i + ops.length →
    st.op_unsat.length = i + ops.length →
    setupOps ops i st =
      enqueueZeroPrecondOps ops
        { st with
          op_cost := st.op_cost.take i ++
            ops.map (fun op => (op.base_cost : Int)),
          op_unsat := st.op_unsat.take i ++
            ops.map (fun op => (op.num_preconditions : Int)) } := by
  intro ops
  induction ops with
  | nil =>
    intro i st hoc hou
    simp only [List.length_nil, Nat.add_zero] at hoc hou
    simp only [setupOps, enqueueZeroPrecondOps, List.foldl_nil, List.map_nil,
      List.append_nil]
    rw [show i = st.op_cost.length from hoc.symm] at *
    rw [List.take_length]
    rw [show st.op_cost.length = st.op_unsat.length from by omega]
    rw [List.take_length]
  | cons op rest ih =>
    intro i st hoc hou
    simp only [List.length_cons] at hoc hou
    have hilt : i < st.op_cost.length := by omega
    have hilt2 : i < st.op_unsat.length := by omega
    simp only [setupOps]
    simp only [enqueueZeroPrecondOps, List.foldl_cons]
    rw [← enqueueZeroPrecondOps]
    by_cases hz : op.num_preconditions = 0
    · rw [if_pos hz, if_pos hz,
        enqueue_commutes_op_arrays st op.effect (op.base_cost : Int)
          (st.op_cost.set i (op.base_cost : Int))
          (st.op_unsat.set i (op.num_preconditions : Int)),
        enqueue_commutes_op_arrays st op.effect (op.base_cost : Int)
          (st.op_cost.take i ++
            (op :: rest).map (fun op2 => (op2.base_cost : Int)))
          (st.op_unsat.take i ++
            (op :: rest).map (fun op2 => (op2.num_preconditions : Int)))]
      rw [ih (i + 1) _ (by simp only [List.length_set]; omega)
        (by simp only [List.length_set]; omega)]
      simp only
      rw [take_set_succ _ _ _ hilt, take_set_succ _ _ _ hilt2]
      simp only [List.map_cons, List.append_assoc, List.singleton_append]
    · rw [if_neg hz, if_neg hz]
      rw [ih (i + 1) _ (by simp only [List.length_set]; omega)
        (by simp only [List.length_set]; omega)]
      simp only
      rw [take_set_succ _ _ _ hilt, take_set_succ _ _ _ hilt2]
      simp only [List.map_cons, List.append_assoc, List.singleton_append]

theorem setup_queue_eq_spec_amended (t : RelaxTask) :
    setup_exploration_queue t = setup_exploration_queue_spec_amended t := by
  rw [setup_exploration_queue,
    setupOps_split t.unary_operators 0 _ (by simp) (by simp)]
  rfl


/-- C1 counterexample: on `relaxCE` (one precondition-free unary operator)
`compute_heuristic` returns 3 while the algorithm exactly as spec section
4.4 states it (queue seeded with precisely the state's facts at cost 0
and nothing else) returns DEAD_END, because `setup_exploration_queue`
(max_heuristic.cc, lines 47-48) additionally enqueues the effects of
precondition-free operators. -/
theorem hmax_literal_spec_counterexample :
    compute_heuristic relaxCE [0] 5 = some 3 ∧
    compute_heuristic_spec relaxCE [0] 5 = none ∧
    compute_heuristic relaxCE [0] 5 ≠ compute_heuristic_spec relaxCE [0] 5 :=
  ⟨by decide, by decide, by decide⟩

/-- C1 (amended): for every task, state and fuel, `compute_heuristic`
computes exactly the spec section 4.4 algorithm amended so that the
reset step also enqueues the effect of every precondition-free unary
operator at its base cost. -/
theorem hmax_matches_amended_spec (t : RelaxTask) (state_facts : List Nat)
    (fuel : Nat) :
    compute_heuristic t state_facts fuel =
      compute_heuristic_spec_amended t state_facts fuel := by
  rw [compute_heuristic, compute_heuristic_spec_amended,
    setup_queue_eq_spec_amended]

/-- Witness for the amended C1 at the concrete counterexample task. -/
theorem hmax_matches_amended_spec_witness :
    compute_heuristic relaxCE [0] 5 =
      compute_heuristic_spec_amended relaxCE [0] 5 :=
  hmax_matches_amended_spec relaxCE [0] 5

/-- Exploration-state invariant: the cost array has one slot per
proposition, proposition costs are −1 or non-negative, and operator
costs are non-negative. -/
def PropCostInv (t : RelaxTask) (st : ExplState) : Prop :=
  st.prop_cost.length = t.propositions.length ∧
  (∀ p, st.prop_cost.getD p (-1) = -1 ∨ 0 ≤ st.prop_cost.getD p (-1)) ∧
  (∀ i, 0 ≤ st.op_cost.getD i 0)

/-- All goal propositions currently have cost 0. -/
def GoalsZero (t : RelaxTask) (st : ExplState) : Prop :=
  ∀ g ∈ t.goal_propositions, st.prop_cost.getD g (-1) = 0

theorem getD_set_cases (l : List Int) (j q : Nat) (v d : Int) :
    (l.set j v).getD q d = l.getD q d ∨
    ((l.set j v).getD q d = v ∧ q = j ∧ j < l.length) := by
  by_cases hq : q = j
  · subst hq
    by_cases hl : q < l.length
    · exact Or.inr ⟨by
        rw [List.getD_eq_getElem?_getD, List.getElem?_set_self hl]; rfl,
        rfl, hl⟩
    · rw [List.set_eq_of_length_le (by omega)]
      exact Or.inl rfl
  · rw [List.getD_eq_getElem?_getD, List.getElem?_set_ne (fun h => hq h.symm),
      ← List.getD_eq_getElem?_getD]
    exact Or.inl rfl

theorem enqueue_prop_len (st : ExplState) (p : Nat) (c : Int) :
    (enqueue_if_necessary st p c).prop_cost.length = st.prop_cost.length := by
  simp only [enqueue_if_necessary]
  split
  · simp only [List.length_set]
  · rfl

theorem enqueue_inv (t : RelaxTask) (st : ExplState) (p : Nat) (c : Int)
    (h : PropCostInv t st) (hc : 0 ≤ c) :
    PropCostInv t (enqueue_if_necessary st p c) := by
  obtain ⟨hlen, hprop, hop⟩ := h
  refine ⟨by rw [enqueue_prop_len]; exact hlen, ?_, ?_⟩
  · intro q
    simp only [enqueue_if_necessary]
    split
    · simp only
      rcases getD_set_cases st.prop_cost p q c (-1) with hcase | ⟨hcase, _, _⟩
      · rw [hcase]; exact hprop q
      · rw [hcase]; exact Or.inr hc
    · exact hprop q
  · intro i
    simp only [enqueue_if_necessary]
    split
    · exact hop i
    · exact hop i

theorem enqueue_keeps_zero (st : ExplState) (p q : Nat) (c : Int)
    (h : st.prop_cost.getD q (-1) = 0) (hc : 0 ≤ c) :
    (enqueue_if_necessary st p c).prop_cost.getD q (-1) = 0 := by
  simp only [enqueue_if_necessary]
  split
  · rename_i hcond
    simp only
    by_cases hq : q = p
    · subst hq
      rw [h] at hcond
      rcases hcond with h1 | h1
      · exact absurd h1 (by decide)
      · exact absurd h1 (by omega)
    · rcases getD_set_cases st.prop_cost p q c (-1) with hcase | ⟨_, hqe, _⟩
      · rw [hcase]; exact h
      · exact absurd hqe hq
  · exact h

theorem enqueue_sets_zero (st : ExplState) (p : Nat)
    (hinv : ∀ q, st.prop_cost.getD q (-1) = -1 ∨
      0 ≤ st.prop_cost.getD q (-1))
    (hp : p < st.prop_cost.length) :
    (enqueue_if_necessary st p 0).prop_cost.getD p (-1) = 0 := by
  simp only [enqueue_if_necessary]
  split
  · simp only
    rw [List.getD_eq_getElem?_getD, List.getElem?_set_self hp]
    rfl
  · rename_i hcond
    push_neg at hcond
    rcases hinv p with h1 | h1
    · exact absurd h1 hcond.1
    · have h2 := hcond.2
      omega

theorem relaxCostUpdate_inv (t : RelaxTask) (pc : Int) (st : ExplState)
    (op_id : Nat) (h : PropCostInv t st ∧ GoalsZero t st) :
    PropCostInv t (relaxCostUpdate t pc st op_id) ∧
    GoalsZero t (relaxCostUpdate t pc st op_id) := by
  obtain ⟨⟨hlen, hprop, hop⟩, hz⟩ := h
  have hnew : (0 : Int) ≤
      max (st.op_cost.getD op_id 0)
        (((get_operator t op_id).base_cost : Int) + pc) :=
    le_trans (hop op_id) (le_max_left _ _)
  have hinv1 : PropCostInv t
      { st with
        op_cost := st.op_cost.set op_id
          (max (st.op_cost.getD op_id 0)
            (((get_operator t op_id).base_cost : Int) + pc)),
        op_unsat := st.op_unsat.set op_id
          (st.op_unsat.getD op_id 0 - 1) } := by
    refine ⟨hlen, hprop, fun i => ?_⟩
    simp only
    rcases getD_set_cases st.op_cost op_id i
      (max (st.op_cost.getD op_id 0)
        (((get_operator t op_id).base_cost : Int) + pc)) 0 with
      hcase | ⟨hcase, _, _⟩
    · rw [hcase]; exact hop i
    · rw [hcase]; exact hnew
  simp only [relaxCostUpdate]
  split
  · exact ⟨enqueue_inv t _ _ _ hinv1 hnew,
      fun g hg => enqueue_keeps_zero _ _ _ _ (hz g hg) hnew⟩
  · exact ⟨hinv1, hz⟩

theorem foldl_relaxCostUpdate_inv (t : RelaxTask) (pc : Int)
    (op_ids : List Nat) :
    ∀ st, PropCostInv t st ∧ GoalsZero t st →
      PropCostInv t (op_ids.foldl (relaxCostUpdate t pc) st) ∧
      GoalsZero t (op_ids.foldl (relaxCostUpdate t pc) st) := by
  induction op_ids with
  | nil => intro st h; exact h
  | cons o rest ih =>
    intro st h
    rw [List.foldl_cons]
    exact ih _ (relaxCostUpdate_inv t pc st o h)

theorem relaxed_exploration_inv (t : RelaxTask) :
    ∀ (fuel : Nat) (unsolved : Int) (st : ExplState),
      PropCostInv t st ∧ GoalsZero t st →
      PropCostInv t (relaxed_exploration t fuel unsolved st) ∧
      GoalsZero t (relaxed_exploration t fuel unsolved st) := by
  intro fuel
  induction fuel with
  | zero => intro unsolved st h; exact h
  | succ fuel ih =>
    intro unsolved st h
    rw [relaxed_exploration]
    cases hq : popMin st.queue with
    | none => exact h
    | some pr =>
      obtain ⟨⟨distance, prop_id⟩, rest⟩ := pr
      simp only
      have h1 : PropCostInv t { st with queue := rest } ∧
          GoalsZero t { st with queue := rest } := h
      split
      · exact ih _ _ h1
      · split
        · exact h1
        · exact ih _ _ (foldl_relaxCostUpdate_inv t _ _ _ h1)

theorem replicate_getD_neg1 (n p : Nat) :
    (List.replicate n (-1 : Int)).getD p (-1) = -1 := by
  rcases lt_or_ge p n with h | h
  · simp [List.getD_eq_getElem?_getD, List.getElem?_replicate, h]
  · exact getD_out_of_range _ _ _ (by simpa using h)

theorem replicate_getD_zero (n p : Nat) :
    (List.replicate n (0 : Int)).getD p 0 = 0 := by
  rcases lt_or_ge p n with h | h
  · simp [List.getD_eq_getElem?_getD, List.getElem?_replicate, h]
  · exact getD_out_of_range _ _ _ (by simpa using h)

theorem setupOps_prop_inv (t : RelaxTask) :
    ∀ (ops : List UnaryOperator) (i : Nat) (st : ExplState),
      PropCostInv t st → PropCostInv t (setupOps ops i st) := by
  intro ops
  induction ops with
  | nil => intro i st h; exact h
  | cons op rest ih =>
    intro i st h
    obtain ⟨hlen, hprop, hop⟩ := h
    have h1 : PropCostInv t
        { st with
          op_unsat := st.op_unsat.set i (op.num_preconditions : Int),
          op_cost := st.op_cost.set i (op.base_cost : Int) } := by
      refine ⟨hlen, hprop, fun j => ?_⟩
      simp only
      rcases getD_set_cases st.op_cost i j (op.base_cost : Int) 0 with
        hcase | ⟨hcase, _, _⟩
      · rw [hcase]; exact hop j
      · rw [hcase]; exact Int.natCast_nonneg _
    simp only [setupOps]
    split
    · exact ih _ _ (enqueue_inv t _ _ _ h1 (Int.natCast_nonneg _))
    · exact ih _ _ h1

theorem setup_queue_prop_inv (t : RelaxTask) :
    PropCostInv t (setup_exploration_queue t) := by
  rw [setup_exploration_queue]
  apply setupOps_prop_inv
  refine ⟨by simp, fun p => Or.inl (replicate_getD_neg1 _ p),
    fun i => ?_⟩
  simp only
  rw [replicate_getD_zero]

theorem seed_inv (t : RelaxTask) (facts : List Nat) :
    ∀ st, PropCostInv t st →
      PropCostInv t (setup_exploration_queue_state st facts) := by
  induction facts with
  | nil => intro st h; exact h
  | cons f rest ih =>
    intro st h
    rw [setup_exploration_queue_state, List.foldl_cons,
      ← setup_exploration_queue_state]
    exact ih _ (enqueue_inv t st f 0 h (le_refl 0))

theorem seed_keeps_zero (facts : List Nat) :
    ∀ (st : ExplState) (q : Nat), st.prop_cost.getD q (-1) = 0 →
      (setup_exploration_queue_state st facts).prop_cost.getD q (-1) = 0 := by
  induction facts with
  | nil => intro st q h; exact h
  | cons f rest ih =>
    intro st q h
    rw [setup_exploration_queue_state, List.foldl_cons,
      ← setup_exploration_queue_state]
    exact ih _ q (enqueue_keeps_zero st f q 0 h (le_refl 0))

theorem seed_sets_zero (t : RelaxTask) (facts : List Nat) :
    ∀ (st : ExplState) (p : Nat), PropCostInv t st → p ∈ facts →
      p < t.propositions.length →
      (setup_exploration_queue_state st facts).prop_cost.getD p (-1) = 0 := by
  induction facts with
  | nil => intro st p _ hmem _; simp at hmem
  | cons f rest ih =>
    intro st p h hmem hlt
    rw [setup_exploration_queue_state, List.foldl_cons,
      ← setup_exploration_queue_state]
    rcases List.mem_cons.mp hmem with rfl | hmem2
    · exact seed_keeps_zero rest _ p
        (enqueue_sets_zero st p h.2.1 (by rw [h.1]; exact hlt))
    · exact ih _ p (enqueue_inv t st f 0 h (le_refl 0)) hmem2 hlt

theorem collect_fold_zero (st : ExplState) :
    ∀ (goals : List Nat), (∀ g ∈ goals, st.prop_cost.getD g (-1) = 0) →
      ∀ (tot : Int), 0 ≤ tot →
      goals.foldl
        (fun acc goal_id =>
          match acc with
          | none => none
          | some total_cost =>
            let goal_cost := st.prop_cost.getD goal_id (-1)
            if goal_cost = -1 then none else some (max total_cost goal_cost))
        (some tot) = some tot := by
  intro goals
  induction goals with
  | nil => intro _ tot _; rfl
  | cons g rest ih =>
    intro h tot htot
    rw [List.foldl_cons]
    have hg : st.prop_cost.getD g (-1) = 0 := h g (List.mem_cons_self _ _)
    simp only [hg]
    rw [if_neg (by decide)]
    rw [max_eq_left htot]
    exact ih (fun g2 hg2 => h g2 (List.mem_cons_of_mem _ hg2)) tot htot

/-- C7: on a state satisfying every goal fact (all goal propositions are
among the state's facts and are valid proposition ids),
`compute_heuristic` returns 0, for every fuel. -/
theorem hmax_goal_state_returns_zero (t : RelaxTask) (state_facts : List Nat)
    (hgoal : ∀ g ∈ t.goal_propositions, g ∈ state_facts)
    (hrange : ∀ g ∈ t.goal_propositions, g < t.propositions.length)
    (fuel : Nat) :
    compute_heuristic t state_facts fuel = some 0 := by
  rw [compute_heuristic]
  have h1 : PropCostInv t
      (setup_exploration_queue_state (setup_exploration_queue t)
        state_facts) :=
    seed_inv t state_facts _ (setup_queue_prop_inv t)
  have h2 : GoalsZero t
      (setup_exploration_queue_state (setup_exploration_queue t)
        state_facts) :=
    fun g hg => seed_sets_zero t state_facts _ g (setup_queue_prop_inv t)
      (hgoal g hg) (hrange g hg)
  have h3 := relaxed_exploration_inv t fuel
    (t.goal_propositions.length : Int) _ ⟨h1, h2⟩
  rw [collect_goal_costs]
  exact collect_fold_zero _ t.goal_propositions h3.2 0 (le_refl 0)

/-- Witness for C7: a concrete task whose two goal propositions are both
facts of the queried state. -/
theorem hmax_goal_state_returns_zero_witness :
    compute_heuristic
      ({ propositions := [⟨true, []⟩, ⟨true, [0]⟩, ⟨false, []⟩],
         unary_operators := [⟨2, 1, 4⟩],
         goal_propositions := [0, 1] } : RelaxTask) [0, 1] 6 = some 0 :=
  hmax_goal_state_returns_zero
    { propositions := [⟨true, []⟩, ⟨true, [0]⟩, ⟨false, []⟩],
      unary_operators := [⟨2, 1, 4⟩],
      goal_propositions := [0, 1] } [0, 1]
    (by decide) (by decide) 6

/-!
## Eager best-first search (`search_algorithms/eager_search.cc`)

States are identified by their numeric `StateID`.  The state registry,
successor generator, pruning method, open-list ordering and evaluators
are external collaborators; they enter the embedding as the oracle
functions of `SearchSetup` (`successor`, `open_list_dead`, `op_cost`,
`adjusted_cost`, and the lazy evaluator's cached/fresh estimates).  The
open list is modelled as the multiset of its entries in insertion order
(pop order is irrelevant to the claims below); evaluator invocations,
path-dependent notifications and state registrations are recorded in
logs so that "nothing happened" is expressible as state equality.
Preferred-operator bookkeeping influences only open-list ordering and is
not modelled.
-/

/-- `SearchNodeInfo` status values (search_space.h). -/
inductive NodeStatus where
  | NEW
  | OPEN
  | CLOSED
  | DEAD_END
deriving DecidableEq

/-- Per-state search node data (search_space.h): status, g, real_g and
the parent pointer with its generating operator. -/
structure NodeInfo where
  status : NodeStatus
  g : Int
  real_g : Int
  parent_state_id : Option Nat
  creating_operator : Option Nat
deriving DecidableEq

/-- The mutable search state: the node table, the open list, effect
logs, and the statistics counters touched by the embedded code. -/
structure EagerState where
  nodes : Nat → NodeInfo
  open_list : List Nat
  registry_log : List (Nat × Nat)
  notify_log : List (Nat × Nat × Nat)
  eval_log : List Nat
  stat_generated : Nat
  stat_evaluated : Nat
  stat_dead_ends : Nat
  stat_reopened : Nat

/-- The lazy evaluator as consulted by `get_next_node_to_expand`:
`cached` models `is_estimate_cached`/`get_cached_estimate`, `fresh`
models `get_evaluator_value_or_infinity` (`none` = infinity). -/
structure LazyEvaluator where
  cached : Nat → Option Int
  fresh : Nat → Option Int

/-- The fixed configuration and external oracles of one search run. -/
structure SearchSetup where
  reopen_closed_nodes : Bool
  bound : Int
  lazy : Option LazyEvaluator
  open_list_dead : Nat → Bool
  op_cost : Nat → Nat
  adjusted_cost : Nat → Int
  successor : Nat → Nat → Nat

/-- Point update of the node table. -/
def set_node (f : Nat → NodeInfo) (id : Nat) (v : NodeInfo) :
    Nat → NodeInfo :=
  fun j => if j = id then v else f j

/-- Modelled from the spec: `SearchNode::close` (search_space.cc is not
among the sampled sources; spec section 4.6 step 2 closes the popped
node, leaving everything else unchanged). -/
def node_close (n : NodeInfo) : NodeInfo := { n with status := .CLOSED }

/-- Modelled from the spec: `SearchNode::mark_as_dead_end` (spec
section 3, invariant 3: any state may transition to DeadEnd). -/
def node_mark_dead (n : NodeInfo) : NodeInfo := { n with status := .DEAD_END }

/-- Modelled from the spec: `SearchNode::open_new_node` (spec section
4.2: sets a new node to Open, links the parent chain,
`g = parent.g + adjusted_cost`; `real_g` uses the true cost, spec
section 9). -/
def open_new_node (parent : NodeInfo) (parent_id op : Nat)
    (adjusted_cost : Int) (cost : Nat) : NodeInfo :=
  { status := .OPEN, g := parent.g + adjusted_cost,
    real_g := parent.real_g + (cost : Int),
    parent_state_id := some parent_id, creating_operator := some op }

/-- Modelled from the spec: `SearchNode::update_open_node_parent`
(spec section 4.2: rewires the parent chain on a cheaper path; the new
g is used for the reinsertion key, spec section 3 invariant 2). -/
def update_open_node_parent (parent : NodeInfo) (parent_id op : Nat)
    (adjusted_cost : Int) (cost : Nat) : NodeInfo :=
  { status := .OPEN, g := parent.g + adjusted_cost,
    real_g := parent.real_g + (cost : Int),
    parent_state_id := some parent_id, creating_operator := some op }

/-- Modelled from the spec: `SearchNode::reopen_closed_node` (spec
section 4.2: reopening flips Closed to Open and rewires the chain). -/
def reopen_closed_node (parent : NodeInfo) (parent_id op : Nat)
    (adjusted_cost : Int) (cost : Nat) : NodeInfo :=
  { status := .OPEN, g := parent.g + adjusted_cost,
    real_g := parent.real_g + (cost : Int),
    parent_state_id := some parent_id, creating_operator := some op }

/-- Modelled from the spec: `SearchNode::update_closed_node_parent`
(spec section 4.2: when reopening is disabled, Closed nodes keep their g
but accept the new parent for path reconstruction; spec section 9:
"only the parent pointer is updated"). -/
def update_closed_node_parent (n : NodeInfo) (parent_id op : Nat) :
    NodeInfo :=
  { n with parent_state_id := some parent_id,
           creating_operator := some op }

/-- `EagerSearch::get_next_node_to_expand` (eager_search.cc, lines
127-183), with explicit fuel for the while-loop.  Besides the chosen
node and the final state it returns the trace of `(popped id, status at
pop)` pairs, most recent last. -/
def getNextNode (cfg : SearchSetup) :
    Nat → EagerState → Option Nat × EagerState × List (Nat × NodeStatus)
  | 0, s => (none, s, [])
  | fuel + 1, s =>
    match s.open_list with
    | [] => (none, s, [])
    | id :: rest =>
      let s1 := { s with open_list := rest }
      let node := s1.nodes id
      if node.status = .CLOSED then
        let r := getNextNode cfg fuel s1
        (r.1, r.2.1, (id, node.status) :: r.2.2)
      else
        match cfg.lazy with
        | some lz =>
          if node.status = .DEAD_END then
            let r := getNextNode cfg fuel s1
            (r.1, r.2.1, (id, node.status) :: r.2.2)
          else
            match lz.cached id with
            | some old_h =>
              let new_h := lz.fresh id
              let s2 := { s1 with eval_log := s1.eval_log ++ [id] }
              if cfg.open_list_dead id then
                let s3 := { s2 with
                  nodes := set_node s2.nodes id (node_mark_dead node),
                  stat_dead_ends := s2.stat_dead_ends + 1 }
                let r := getNextNode cfg fuel s3
                (r.1, r.2.1, (id, node.status) :: r.2.2)
              else if new_h ≠ some old_h then
                let s3 := { s2 with open_list := s2.open_list ++ [id] }
                let r := getNextNode cfg fuel s3
                (r.1, r.2.1, (id, node.status) :: r.2.2)
              else
                (some id,
                 { s2 with nodes := set_node s2.nodes id (node_close node) },
                 [(id, node.status)])
            | none =>
              (some id,
               { s1 with nodes := set_node s1.nodes id (node_close node) },
               [(id, node.status)])
        | none =>
          (some id,
           { s1 with nodes := set_node s1.nodes id (node_close node) },
           [(id, node.status)])

/-- One iteration of the operator loop of
`EagerSearch::generate_successors` (eager_search.cc, lines 225-307):
bound pruning, successor registration, statistics, path-dependent
notification, dead-end skip, and the new / cheaper-path cases. -/
def processOp (cfg : SearchSetup) (parent_id : Nat) (s : EagerState)
    (op : Nat) : EagerState :=
  let node := s.nodes parent_id
  if cfg.bound ≤ node.real_g + (cfg.op_cost op : Int) then s
  else
    let succ_id := cfg.successor parent_id op
    let s1 := { s with
      registry_log := s.registry_log ++ [(parent_id, op)],
      stat_generated := s.stat_generated + 1 }
    let s2 := { s1 with
      notify_log := s1.notify_log ++ [(parent_id, op, succ_id)] }
    let succ_node := s2.nodes succ_id
    if succ_node.status = .DEAD_END then s2
    else if succ_node.status = .NEW then
      let s3 := { s2 with
        stat_evaluated := s2.stat_evaluated + 1,
        eval_log := s2.eval_log ++ [succ_id] }
      if cfg.open_list_dead succ_id then
        { s3 with
          nodes := set_node s3.nodes succ_id (node_mark_dead succ_node),
          stat_dead_ends := s3.stat_dead_ends + 1 }
      else
        { s3 with
          nodes := set_node s3.nodes succ_id
            (open_new_node node parent_id op (cfg.adjusted_cost op)
              (cfg.op_cost op)),
          open_list := s3.open_list ++ [succ_id] }
    else if node.g + cfg.adjusted_cost op < succ_node.g then
      if succ_node.status = .OPEN then
        { s2 with
          nodes := set_node s2.nodes succ_id
            (update_open_node_parent node parent_id op
              (cfg.adjusted_cost op) (cfg.op_cost op)),
          open_list := s2.open_list ++ [succ_id] }
      else if succ_node.status = .CLOSED ∧ cfg.reopen_closed_nodes = true then
        { s2 with
          stat_reopened := s2.stat_reopened + 1,
          nodes := set_node s2.nodes succ_id
            (reopen_closed_node node parent_id op
              (cfg.adjusted_cost op) (cfg.op_cost op)),
          open_list := s2.open_list ++ [succ_id] }
      else
        { s2 with
          nodes := set_node s2.nodes succ_id
            (update_closed_node_parent succ_node parent_id op) }
    else s2

/-- `EagerSearch::generate_successors` (eager_search.cc, lines
209-309): the operator loop over the applicable operators that survive
pruning (successor generation and pruning are external). -/
def generate_successors (cfg : SearchSetup) (parent_id : Nat)
    (applicable_ops : List Nat) (s : EagerState) : EagerState :=
  applicable_ops.foldl (processOp cfg parent_id) s

/-- The search state before initialization: all nodes New, nothing
logged. -/
def empty_search_state : EagerState :=
  { nodes := fun _ => ⟨.NEW, 0, 0, none, none⟩,
    open_list := [], registry_log := [], notify_log := [], eval_log := [],
    stat_generated := 0, stat_evaluated := 0, stat_dead_ends := 0,
    stat_reopened := 0 }

/-- `EagerSearch::initialize` (eager_search.cc, lines 80-103): evaluate
the initial state; if the open list declares it dead, insert nothing,
otherwise open the initial node (g = 0, no parent) and insert it. -/
def init_search (cfg : SearchSetup) (initial_id : Nat) : EagerState :=
  let s0 := { empty_search_state with
    eval_log := [initial_id], stat_evaluated := 1 }
  if cfg.open_list_dead initial_id then s0
  else
    { s0 with
      nodes := set_node s0.nodes initial_id ⟨.OPEN, 0, 0, none, none⟩,
      open_list := [initial_id] }

/-- C4: an applicable operator with `real_g + cost >= bound` is skipped
entirely: `processOp` returns the state unchanged, so no successor is
registered, no statistics counter moves, no evaluator is notified and
nothing enters the open list. -/
theorem eager_bound_prunes (cfg : SearchSetup) (parent_id : Nat)
    (s : EagerState) (op : Nat)
    (h : cfg.bound ≤ (s.nodes parent_id).real_g + (cfg.op_cost op : Int)) :
    processOp cfg parent_id s op = s := by
  simp only [processOp]
  rw [if_pos h]

/-- C3: with reopening disabled, a strictly cheaper path to a Closed
successor only rewires that node's parent pointer and generating
operator (`update_closed_node_parent`): the resulting state differs
from the pre-operator state only in the per-operator logs and in the
successor's parent fields; in particular the node stays Closed with its
g and real_g, and the open list is untouched. -/
theorem eager_closed_no_reopen (cfg : SearchSetup) (parent_id : Nat)
    (s : EagerState) (op : Nat)
    (hreopen : cfg.reopen_closed_nodes = false)
    (hbound : (s.nodes parent_id).real_g + (cfg.op_cost op : Int) < cfg.bound)
    (hclosed : (s.nodes (cfg.successor parent_id op)).status = .CLOSED)
    (hcheaper : (s.nodes parent_id).g + cfg.adjusted_cost op <
      (s.nodes (cfg.successor parent_id op)).g) :
    processOp cfg parent_id s op =
      { s with
        registry_log := s.registry_log ++ [(parent_id, op)],
        stat_generated := s.stat_generated + 1,
        notify_log := s.notify_log ++
          [(parent_id, op, cfg.successor parent_id op)],
        nodes := set_node s.nodes (cfg.successor parent_id op)
          (update_closed_node_parent
            (s.nodes (cfg.successor parent_id op)) parent_id op) } := by
  simp only [processOp]
  split_ifs with h1 h2 h3 h4 h5 h6 <;>
    first
      | rfl
      | omega
      | (exfalso
         change (s.nodes (cfg.successor parent_id op)).status = _ at h2
         rw [hclosed] at h2
         exact NodeStatus.noConfusion h2)
      | (exfalso
         change (s.nodes (cfg.successor parent_id op)).status = _ at h3
         rw [hclosed] at h3
         exact NodeStatus.noConfusion h3)
      | (exfalso
         change (s.nodes (cfg.successor parent_id op)).status = _ at h5
         rw [hclosed] at h5
         exact NodeStatus.noConfusion h5)
      | (exfalso
         rw [hreopen] at h6
         exact Bool.noConfusion h6.2)

theorem getLast?_cons_of {β : Type} (l : List β) (e x : β)
    (h : l.getLast? = some x) : (e :: l).getLast? = some x := by
  cases l with
  | nil => simp at h
  | cons a t => rw [List.getLast?_cons_cons]; exact h

/-- One pop step on a stale (Closed) head entry: the computation is
exactly the computation on the remaining open list, with only the pop
recorded in the trace — no evaluation, no node modification. -/
theorem eager_skip_closed_one (cfg : SearchSetup) (fuel : Nat)
    (s : EagerState) (id : Nat) (rest : List Nat)
    (hl : s.open_list = id :: rest) (hc : (s.nodes id).status = .CLOSED) :
    getNextNode cfg (fuel + 1) s =
      ((getNextNode cfg fuel { s with open_list := rest }).1,
       (getNextNode cfg fuel { s with open_list := rest }).2.1,
       (id, NodeStatus.CLOSED) ::
         (getNextNode cfg fuel { s with open_list := rest }).2.2) := by
  rw [getNextNode, hl]
  simp only
  rw [if_pos hc, hc]

/-- Whenever `get_next_node_to_expand` returns a node, the last popped
entry is that node and its status at the moment of the pop was not
Closed. -/
theorem eager_returned_not_closed (cfg : SearchSetup) :
    ∀ (fuel : Nat) (s : EagerState) (id : Nat),
      (getNextNode cfg fuel s).1 = some id →
      ∃ st, (getNextNode cfg fuel s).2.2.getLast? = some (id, st) ∧
        st ≠ NodeStatus.CLOSED := by
  intro fuel
  induction fuel with
  | zero =>
    intro s id h
    exact absurd h (by simp [getNextNode])
  | succ fuel ih =>
    intro s id h
    rw [getNextNode] at h ⊢
    cases hl : s.open_list with
    | nil =>
      rw [hl] at h
      exact absurd h (by simp)
    | cons hd rest =>
      rw [hl] at h
      simp only at h ⊢
      by_cases hc : (s.nodes hd).status = .CLOSED
      · rw [if_pos hc] at h ⊢
        obtain ⟨st, h1, h2⟩ := ih _ id h
        exact ⟨st, getLast?_cons_of _ _ _ h1, h2⟩
      · rw [if_neg hc] at h ⊢
        cases hlz : cfg.lazy with
        | none =>
          rw [hlz] at h
          simp only at h ⊢
          rw [Option.some.injEq] at h
          subst h
          exact ⟨_, by simp, hc⟩
        | some lz =>
          rw [hlz] at h
          simp only at h ⊢
          by_cases hd2 : (s.nodes hd).status = .DEAD_END
          · rw [if_pos hd2] at h ⊢
            obtain ⟨st, h1, h2⟩ := ih _ id h
            exact ⟨st, getLast?_cons_of _ _ _ h1, h2⟩
          · rw [if_neg hd2] at h ⊢
            cases hcc : lz.cached hd with
            | none =>
              rw [hcc] at h
              simp only at h ⊢
              rw [Option.some.injEq] at h
              subst h
              exact ⟨_, by simp, hc⟩
            | some old_h =>
              rw [hcc] at h
              simp only at h ⊢
              by_cases hod : cfg.open_list_dead hd
              · rw [if_pos hod] at h ⊢
                obtain ⟨st, h1, h2⟩ := ih _ id h
                exact ⟨st, getLast?_cons_of _ _ _ h1, h2⟩
              · rw [if_neg hod] at h ⊢
                by_cases hne : lz.fresh hd ≠ some old_h
                · rw [if_pos hne] at h ⊢
                  obtain ⟨st, h1, h2⟩ := ih _ id h
                  exact ⟨st, getLast?_cons_of _ _ _ h1, h2⟩
                · rw [if_neg hne] at h ⊢
                  rw [Option.some.injEq] at h
                  subst h
                  exact ⟨_, by simp, hc⟩

/-- Open-list invariant of a run without a lazy evaluator: every state
in the open list has an Open or Closed node (in particular never a
DeadEnd node, and marking dead only ever hits New nodes, which are
never in the list). -/
def EagerInv (s : EagerState) : Prop :=
  ∀ id ∈ s.open_list,
    (s.nodes id).status = .OPEN ∨ (s.nodes id).status = .CLOSED

theorem eagerInv_init (cfg : SearchSetup) (initial_id : Nat) :
    EagerInv (init_search cfg initial_id) := by
  rw [init_search]
  split
  · intro id hid
    simp [empty_search_state] at hid
  · intro id hid
    simp only [empty_search_state] at hid ⊢
    rcases List.mem_singleton.mp hid with rfl
    simp [set_node]

theorem eagerInv_processOp (cfg : SearchSetup) (parent_id : Nat)
    (s : EagerState) (op : Nat) (h : EagerInv s) :
    EagerInv (processOp cfg parent_id s op) := by
  simp only [processOp]
  split_ifs with h1 h2 h3 h4 h5 h6 h7
  · exact h
  · exact h
  · -- new successor marked dead: it cannot be in the open list
    intro sid hsid
    simp only at hsid ⊢
    simp only [set_node]
    by_cases he : sid = cfg.successor parent_id op
    · change (s.nodes (cfg.successor parent_id op)).status = .NEW at h3
      rcases h sid hsid with hst | hst <;>
        (rw [he, h3] at hst; exact absurd hst (by simp))
    · rw [if_neg he]
      exact h sid hsid
  · -- new successor opened and inserted
    intro sid hsid
    simp only at hsid ⊢
    simp only [set_node]
    rcases List.mem_append.mp hsid with hsid2 | hsid2
    · by_cases he : sid = cfg.successor parent_id op
      · rw [if_pos he]
        simp [open_new_node]
      · rw [if_neg he]
        exact h sid hsid2
    · rcases List.mem_singleton.mp hsid2 with rfl
      simp [open_new_node]
  · -- cheaper path to an open successor
    intro sid hsid
    simp only at hsid ⊢
    simp only [set_node]
    rcases List.mem_append.mp hsid with hsid2 | hsid2
    · by_cases he : sid = cfg.successor parent_id op
      · rw [if_pos he]
        simp [update_open_node_parent]
      · rw [if_neg he]
        exact h sid hsid2
    · rcases List.mem_singleton.mp hsid2 with rfl
      simp [update_open_node_parent]
  · -- reopened closed successor
    intro sid hsid
    simp only at hsid ⊢
    simp only [set_node]
    rcases List.mem_append.mp hsid with hsid2 | hsid2
    · by_cases he : sid = cfg.successor parent_id op
      · rw [if_pos he]
        simp [reopen_closed_node]
      · rw [if_neg he]
        exact h sid hsid2
    · rcases List.mem_singleton.mp hsid2 with rfl
      simp [reopen_closed_node]
  · -- closed successor, no reopening: only parents rewired
    intro sid hsid
    simp only at hsid ⊢
    simp only [set_node]
    by_cases he : sid = cfg.successor parent_id op
    · rw [if_pos he]
      right
      simp only [update_closed_node_parent]
      rcases h sid hsid with hst | hst
      · rw [he] at hst
        exact absurd hst h6
      · rw [he] at hst
        exact hst
    · rw [if_neg he]
      exact h sid hsid
  · exact h

theorem eagerInv_generate (cfg : SearchSetup) (parent_id : Nat)
    (applicable_ops : List Nat) :
    ∀ s, EagerInv s →
      EagerInv (generate_successors cfg parent_id applicable_ops s) := by
  induction applicable_ops with
  | nil => intro s h; exact h
  | cons op rest ih =>
    intro s h
    rw [generate_successors, List.foldl_cons, ← generate_successors]
    exact ih _ (eagerInv_processOp cfg parent_id s op h)

theorem eagerInv_getNext (cfg : SearchSetup) (hlz : cfg.lazy = none) :
    ∀ (fuel : Nat) (s : EagerState), EagerInv s →
      EagerInv (getNextNode cfg fuel s).2.1 ∧
      (∀ id2, (getNextNode cfg fuel s).1 = some id2 →
        (getNextNode cfg fuel s).2.2.getLast? = some (id2, NodeStatus.OPEN)) := by
  intro fuel
  induction fuel with
  | zero =>
    intro s h
    exact ⟨h, fun id2 hid2 => absurd hid2 (by simp [getNextNode])⟩
  | succ fuel ih =>
    intro s h
    rw [getNextNode]
    cases hl : s.open_list with
    | nil => exact ⟨h, fun id2 hid2 => absurd hid2 (by simp)⟩
    | cons hd rest =>
      simp only
      have hrest : EagerInv
          (⟨s.nodes, rest, s.registry_log, s.notify_log, s.eval_log,
            s.stat_generated, s.stat_evaluated, s.stat_dead_ends,
            s.stat_reopened⟩ : EagerState) := by
        intro id2 hid2
        exact h id2 (by rw [hl]; exact List.mem_cons_of_mem _ hid2)
      have hhd : (s.nodes hd).status = .OPEN ∨
          (s.nodes hd).status = .CLOSED :=
        h hd (by rw [hl]; exact List.mem_cons_self _ _)
      by_cases hc : (s.nodes hd).status = .CLOSED
      · rw [if_pos hc]
        obtain ⟨hi1, hi2⟩ := ih _ hrest
        refine ⟨hi1, fun id2 hid2 => ?_⟩
        exact getLast?_cons_of _ _ _ (hi2 id2 hid2)
      · rw [if_neg hc]
        rw [hlz]
        simp only
        constructor
        · intro id2 hid2
          simp only at hid2
          simp only [set_node]
          by_cases he : id2 = hd
          · rw [if_pos he]
            simp [node_close]
          · rw [if_neg he]
            exact hrest id2 hid2
        · intro id2 hid2
          rw [Option.some.injEq] at hid2
          have hopen : (s.nodes hd).status = .OPEN := by
            rcases hhd with h1 | h1
            · exact h1
            · exact absurd h1 hc
          rw [← hid2, hopen]
          rfl

/-- C2: an entry popped from the open list whose node is already Closed
is discarded without evaluating the state, without modifying any node
and without being returned (the run continues exactly as if only the
entry had been removed), and every node the function returns was not
Closed at the moment its entry was popped. -/
theorem eager_pop_discards_closed_entries (cfg : SearchSetup) :
    (∀ fuel s id rest, s.open_list = id :: rest →
      (s.nodes id).status = .CLOSED →
      getNextNode cfg (fuel + 1) s =
        ((getNextNode cfg fuel { s with open_list := rest }).1,
         (getNextNode cfg fuel { s with open_list := rest }).2.1,
         (id, NodeStatus.CLOSED) ::
           (getNextNode cfg fuel { s with open_list := rest }).2.2))
    ∧ (∀ fuel s id, (getNextNode cfg fuel s).1 = some id →
      ∃ st, (getNextNode cfg fuel s).2.2.getLast? = some (id, st) ∧
        st ≠ NodeStatus.CLOSED) :=
  ⟨fun fuel s id rest hl hc => eager_skip_closed_one cfg fuel s id rest hl hc,
   fun fuel s id h => eager_returned_not_closed cfg fuel s id h⟩

/-- Concrete configuration for the eager-search witnesses: no lazy
evaluator, bound 100, unit costs, a fixed successor function, and no
dead ends. -/
def witnessSetup : SearchSetup :=
  { reopen_closed_nodes := false, bound := 100, lazy := none,
    open_list_dead := fun _ => false, op_cost := fun _ => 1,
    adjusted_cost := fun _ => 1, successor := fun _ _ => 1 }

/-- Witness state for C2: state 7 is Closed and heads the open list;
state 3 is Open. -/
def witnessStateC2 : EagerState :=
  { empty_search_state with
    nodes := fun i =>
      if i = 7 then ⟨.CLOSED, 0, 0, none, none⟩
      else if i = 3 then ⟨.OPEN, 0, 0, none, none⟩
      else ⟨.NEW, 0, 0, none, none⟩,
    open_list := [7, 3] }

/-- Witness for C2: popping the Closed state 7 defers to the rest of the
list, and the returned node 3 was popped with status Open. -/
theorem eager_pop_discards_closed_entries_witness :
    (getNextNode witnessSetup (1 + 1) witnessStateC2 =
      ((getNextNode witnessSetup 1
          { witnessStateC2 with open_list := [3] }).1,
       (getNextNode witnessSetup 1
          { witnessStateC2 with open_list := [3] }).2.1,
       (7, NodeStatus.CLOSED) ::
         (getNextNode witnessSetup 1
            { witnessStateC2 with open_list := [3] }).2.2))
    ∧ (∃ st, (getNextNode witnessSetup 2 witnessStateC2).2.2.getLast? =
        some (3, st) ∧ st ≠ NodeStatus.CLOSED) :=
  ⟨(eager_pop_discards_closed_entries witnessSetup).1 1 witnessStateC2 7 [3]
      rfl (by decide),
   (eager_pop_discards_closed_entries witnessSetup).2 2 witnessStateC2 3
      (by decide)⟩

/-- Witness state for C3/C4: state 0 (Closed, g = 5) is being expanded;
state 1, its successor under every operator, is Closed with g = 10. -/
def witnessStateC3 : EagerState :=
  { empty_search_state with
    nodes := fun i =>
      if i = 0 then ⟨.CLOSED, 5, 5, none, none⟩
      else if i = 1 then ⟨.CLOSED, 10, 10, none, none⟩
      else ⟨.NEW, 0, 0, none, none⟩,
    open_list := [] }

/-- Witness for C3: the cheaper path 0 → 1 under operator 4 only rewires
state 1's parent fields. -/
theorem eager_closed_no_reopen_witness :
    processOp witnessSetup 0 witnessStateC3 4 =
      { witnessStateC3 with
        registry_log := witnessStateC3.registry_log ++ [(0, 4)],
        stat_generated := witnessStateC3.stat_generated + 1,
        notify_log := witnessStateC3.notify_log ++
          [(0, 4, witnessSetup.successor 0 4)],
        nodes := set_node witnessStateC3.nodes (witnessSetup.successor 0 4)
          (update_closed_node_parent
            (witnessStateC3.nodes (witnessSetup.successor 0 4)) 0 4) } :=
  eager_closed_no_reopen witnessSetup 0 witnessStateC3 4 rfl (by decide)
    (by decide) (by decide)

/-- Witness configuration for C4: like `witnessSetup` but with bound 3,
which the expansion of state 0 (real_g = 5) exceeds for every
operator. -/
def witnessSetupC4 : SearchSetup :=
  { witnessSetup with bound := 3 }

/-- Witness for C4: with bound 3 the operator is skipped and the state
is returned unchanged. -/
theorem eager_bound_prunes_witness :
    processOp witnessSetupC4 0 witnessStateC3 4 = witnessStateC3 :=
  eager_bound_prunes witnessSetupC4 0 witnessStateC3 4 (by decide)

theorem eagerInv_no_dead (s : EagerState) (h : EagerInv s) :
    ∀ id ∈ s.open_list, (s.nodes id).status ≠ NodeStatus.DEAD_END := by
  intro id hid
  rcases h id hid with h1 | h1 <;> rw [h1] <;> intro hcon <;>
    exact NodeStatus.noConfusion hcon

/-- C9: without a lazy evaluator, the open list never contains a state
whose node is DeadEnd: the invariant that open-list members are Open or
Closed holds after initialization, is preserved by every successor
generation step and by `get_next_node_to_expand`, and consequently the
node that `get_next_node_to_expand` closes and returns was Open when
popped — the `assert(!node.is_dead_end())` holds. -/
theorem eager_no_dead_end_in_open_list (cfg : SearchSetup)
    (hlz : cfg.lazy = none) :
    (∀ initial_id, EagerInv (init_search cfg initial_id))
    ∧ (∀ parent_id s op, EagerInv s →
        EagerInv (processOp cfg parent_id s op))
    ∧ (∀ parent_id applicable_ops s, EagerInv s →
        EagerInv (generate_successors cfg parent_id applicable_ops s))
    ∧ (∀ s, EagerInv s →
        ∀ id ∈ s.open_list, (s.nodes id).status ≠ NodeStatus.DEAD_END)
    ∧ (∀ fuel s, EagerInv s →
        EagerInv (getNextNode cfg fuel s).2.1 ∧
        (∀ id, (getNextNode cfg fuel s).1 = some id →
          (getNextNode cfg fuel s).2.2.getLast? =
            some (id, NodeStatus.OPEN))) :=
  ⟨fun i => eagerInv_init cfg i,
   fun p s op h => eagerInv_processOp cfg p s op h,
   fun p ops s h => eagerInv_generate cfg p ops s h,
   fun s h => eagerInv_no_dead s h,
   fun fuel s h => eagerInv_getNext cfg hlz fuel s h⟩

/-- Witness for C9 at the concrete lazy-free configuration. -/
theorem eager_no_dead_end_in_open_list_witness :
    (∀ initial_id, EagerInv (init_search witnessSetup initial_id))
    ∧ (∀ parent_id s op, EagerInv s →
        EagerInv (processOp witnessSetup parent_id s op))
    ∧ (∀ parent_id applicable_ops s, EagerInv s →
        EagerInv (generate_successors witnessSetup parent_id
          applicable_ops s))
    ∧ (∀ s, EagerInv s →
        ∀ id ∈ s.open_list, (s.nodes id).status ≠ NodeStatus.DEAD_END)
    ∧ (∀ fuel s, EagerInv s →
        EagerInv (getNextNode witnessSetup fuel s).2.1 ∧
        (∀ id, (getNextNode witnessSetup fuel s).1 = some id →
          (getNextNode witnessSetup fuel s).2.2.getLast? =
            some (id, NodeStatus.OPEN))) :=
  eager_no_dead_end_in_open_list witnessSetup rfl
